import Mathlib

/-!
Verification of the `printc!` macro (`src/lib.rs`).

The macro has three arms:

* `() => { $println!() }` — note the stray `$` in the source: `println`
  is not a metavariable bound by this arm's matcher, so the transcription
  contains a literal `$` token and the expansion is not a valid Rust
  expression; an invocation `printc!()` therefore fails to compile.
* `($val:expr $(,)?) => { match $val { tmp => { println!("{} = {:#?}",
  stringify!($val), &tmp); tmp } } }` — evaluate the expression once,
  print one line `<source text> = <pretty debug of the value>`, yield
  the value.
* `($($val:expr),+ $(,)?) => { ($($crate::printc!($val)),+) }` — a
  left-to-right tuple of single-expression expansions.

We embed call sites shallowly: a Rust expression at a call site is a
source-text label (what `stringify!` produces) together with its
evaluation, a transformer on an abstract caller state `σ` returning a
value.  The observable world is that caller state plus the standard
output sink, a list of emitted lines.  The `{:#?}` rendering is an
abstract parameter `pretty : Val → String`.
-/

namespace Printc

/-- A Rust expression as it appears at a `printc!` call site: its source
text (what `stringify!($val)` yields) and its evaluation, modelled as a
transformer of an abstract caller state `σ` producing a value. -/
structure Expr (σ Val : Type) where
  label : String
  run : σ → σ × Val

/-- The observable world at a call site: the caller's state together with
the standard output sink, a list of lines already written. -/
structure World (σ : Type) where
  st : σ
  out : List String
deriving DecidableEq

/-- The single-expression arm
`match $val { tmp => { println!("{} = {:#?}", stringify!($val), &tmp); tmp } }`:
evaluate `$val` once binding the result to `tmp`, write the line
`stringify!($val) ++ " = " ++ <{:#?} rendering of tmp>`, then yield `tmp`. -/
def printc1 {σ Val : Type} (pretty : Val → String) (e : Expr σ Val)
    (w : World σ) : World σ × Val :=
  match e.run w.st with
  | (s1, tmp) => (⟨s1, w.out ++ [e.label ++ " = " ++ pretty tmp]⟩, tmp)

/-- The variadic arm `($($crate::printc!($val)),+)`: the tuple expression
evaluates its components left to right, each through the single-expression
arm.  The heterogeneous Rust tuple is modelled as a list of values. -/
def printcList {σ Val : Type} (pretty : Val → String) :
    List (Expr σ Val) → World σ → World σ × List Val
  | [], w => (w, [])
  | e :: es, w =>
    match printc1 pretty e w with
    | (w1, v) =>
      match printcList pretty es w1 with
      | (w2, vs) => (w2, v :: vs)

/-- Bare left-to-right evaluation of the same expressions without the
macro, for comparison: what the caller would observe writing the
expressions directly. -/
def evalSeq {σ Val : Type} : List (Expr σ Val) → σ → σ × List Val
  | [], s => (s, [])
  | e :: es, s =>
    match e.run s with
    | (s1, v) =>
      match evalSeq es s1 with
      | (s2, vs) => (s2, v :: vs)

/-- The one line the single-expression arm writes when evaluation starts
in caller state `s`. -/
def lineOf {σ Val : Type} (pretty : Val → String) (e : Expr σ Val)
    (s : σ) : String :=
  e.label ++ " = " ++ pretty (e.run s).2

/-- The lines written for a list of expressions evaluated left to right
from caller state `s`. -/
def linesOf {σ Val : Type} (pretty : Val → String) :
    List (Expr σ Val) → σ → List String
  | [], _ => []
  | e :: es, s => lineOf pretty e s :: linesOf pretty es (e.run s).1

/-- The whole `printc!` matcher.  Arguments are the comma-separated
expressions plus whether a trailing comma is present; the optional
trailing comma `$(,)?` of the one-expression and variadic arms binds no
metavariable, so the transcription cannot depend on it.  The empty arm
transcribes `$println!()`; since `println` is not a metavariable bound by
that arm, the transcription carries a literal `$` token and is not a
valid Rust expression, so the no-argument invocation fails to compile:
modelled as `none`. -/
def printcCall {σ Val : Type} (pretty : Val → String)
    (args : List (Expr σ Val)) (_tc : Bool) (w : World σ) :
    Option (World σ × List Val) :=
  match args with
  | [] => none
  | [e] =>
    match printc1 pretty e w with
    | (w1, v) => some (w1, [v])
  | es => some (printcList pretty es w)

/-- The token text transcribed by the no-argument arm as written in the
source (with its stray `$`). -/
def noArgTranscription : String := "$println!()"

/-- The call-site expression of the spec's end-to-end example
`printc!(1 + 2)`: source text `1 + 2`, value `3`, no state effect. -/
def addExample : Expr Unit Int := ⟨"1 + 2", fun s => (s, 1 + 2)⟩

/-- Helper: the macro's list expansion equals bare left-to-right
evaluation, with exactly the expected lines appended to the sink. -/
theorem printcList_eq_evalSeq {σ Val : Type} (pretty : Val → String)
    (es : List (Expr σ Val)) (w : World σ) :
    printcList pretty es w =
      (⟨(evalSeq es w.st).1, w.out ++ linesOf pretty es w.st⟩,
        (evalSeq es w.st).2) := by
  induction es generalizing w with
  | nil => simp [printcList, evalSeq, linesOf]
  | cons e es ih =>
    simp only [printcList, printc1, evalSeq, linesOf, lineOf, ih]
    cases h : e.run w.st with
    | mk s1 v =>
      simp [h, List.append_assoc]

/-- Helper: one line is produced per expression. -/
theorem linesOf_length {σ Val : Type} (pretty : Val → String) :
    ∀ (es : List (Expr σ Val)) (s : σ),
      (linesOf pretty es s).length = es.length := by
  intro es
  induction es with
  | nil => intro s; rfl
  | cons e es ih => intro s; simp [linesOf, ih]

/-- C1: Pass-through identity.  The value yielded by the single-expression
arm equals the value of the bare expression evaluated directly, the
resulting caller state equals the bare evaluation's state, and the only
additional effect is one line appended to the output sink. -/
theorem pass_through_identity {σ Val : Type} (pretty : Val → String)
    (e : Expr σ Val) (w : World σ) :
    (printc1 pretty e w).2 = (e.run w.st).2
    ∧ (printc1 pretty e w).1.st = (e.run w.st).1
    ∧ (printc1 pretty e w).1.out = w.out ++ [lineOf pretty e w.st] := by
  unfold printc1 lineOf
  cases h : e.run w.st with
  | mk s1 v => exact ⟨rfl, rfl, rfl⟩

/-- C2: Single evaluation.  If every call of `e.run` bumps an
instrumentation counter on the caller state by exactly one, then one
invocation of the single-expression arm bumps it by exactly one — the
expression is evaluated exactly once, never zero times and never twice. -/
theorem single_evaluation {σ Val : Type} (pretty : Val → String)
    (e : Expr σ Val) (count : σ → Nat)
    (hcount : ∀ s, count (e.run s).1 = count s + 1) (w : World σ) :
    count (printc1 pretty e w).1.st = count w.st + 1 := by
  unfold printc1
  cases h : e.run w.st with
  | mk s1 v =>
    have := hcount w.st
    rw [h] at this
    exact this

/-- Witness for C2 at a concrete counter-incrementing expression. -/
theorem single_evaluation_witness :
    (fun s : Nat => s)
        (printc1 (fun n : Nat => toString n)
          ⟨"tick", fun s : Nat => (s + 1, s)⟩ ⟨0, []⟩).1.st
      = (fun s : Nat => s) 0 + 1 :=
  single_evaluation (fun n : Nat => toString n)
    ⟨"tick", fun s : Nat => (s + 1, s)⟩ (fun s : Nat => s)
    (fun _ => rfl) ⟨0, []⟩

/-- C3: Multi-argument form.  For two or more expressions the macro
evaluates them left to right — the caller state threads exactly as bare
left-to-right evaluation, the lines appear in left-to-right order — and
the result collects the values in their original order. -/
theorem multi_arg_order {σ Val : Type} (pretty : Val → String)
    (es : List (Expr σ Val)) (tc : Bool) (w : World σ)
    (h : 2 ≤ es.length) :
    printcCall pretty es tc w =
      some (⟨(evalSeq es w.st).1, w.out ++ linesOf pretty es w.st⟩,
        (evalSeq es w.st).2) := by
  match es with
  | [] => simp at h
  | [e] => simp at h
  | e1 :: e2 :: rest =>
    show some (printcList pretty (e1 :: e2 :: rest) w) = _
    rw [printcList_eq_evalSeq]

/-- Witness for C3 on two concrete expressions. -/
theorem multi_arg_order_witness :
    printcCall (fun n : Nat => toString n)
        [⟨"a", fun s : Nat => (s, 5)⟩, ⟨"b", fun s : Nat => (s + 1, 7)⟩]
        true ⟨0, []⟩
      = some (⟨1, ["a = 5", "b = 7"]⟩, [5, 7]) :=
  (multi_arg_order (fun n : Nat => toString n)
      [⟨"a", fun s : Nat => (s, 5)⟩, ⟨"b", fun s : Nat => (s + 1, 7)⟩]
      true ⟨0, []⟩ (by decide)).trans (by decide)

/-- C4: No-argument form.  The claim says `printc!()` writes one blank
line and returns unit; in the source the arm transcribes `$println!()` —
`println` is not a metavariable bound by the empty matcher, so the
expansion keeps a literal `$` token and is not a valid expression: the
invocation fails to compile and writes nothing.  The transcribed token
text differs from the well-formed `println!()` precisely by that `$`. -/
theorem no_arg_form_bug :
    printcCall (fun n : Nat => toString n) ([] : List (Expr Nat Nat))
        false ⟨0, []⟩ = none
    ∧ noArgTranscription ≠ "println!()"
    ∧ noArgTranscription.front = '$' :=
  ⟨rfl, by decide, by decide⟩

/-- C5: Output line format.  The single-expression arm writes exactly one
line, `<source text> ++ " = " ++ <pretty rendering of the value>`; in
particular `printc!(1 + 2)` writes the line `1 + 2 = 3` and yields `3`. -/
theorem output_line_format :
    (∀ (σ Val : Type) (pretty : Val → String) (e : Expr σ Val)
        (w : World σ),
      (printc1 pretty e w).1.out =
        w.out ++ [e.label ++ " = " ++ pretty (e.run w.st).2])
    ∧ printc1 (fun i : Int => toString i) addExample ⟨(), []⟩
        = (⟨(), ["1 + 2 = 3"]⟩, 3) := by
  constructor
  · intro σ Val pretty e w
    unfold printc1
    cases h : e.run w.st with
    | mk s1 v => rfl
  · rfl

/-- C6: Label fidelity.  The line the single-expression arm emits is the
call-site source text of the expression, then `" = "`, then the rendered
value; the label segment is exactly the source text, never the value.  In
the example `printc!(1 + 2)` the label is the literal text `1 + 2`, which
is not the rendering `3` of the computed value. -/
theorem label_fidelity :
    (∀ (σ Val : Type) (pretty : Val → String) (e : Expr σ Val)
        (w : World σ),
      ∃ rendered,
        (printc1 pretty e w).1.out = w.out ++ [e.label ++ " = " ++ rendered]
        ∧ rendered = pretty (e.run w.st).2)
    ∧ addExample.label = "1 + 2"
    ∧ addExample.label ≠ toString ((addExample.run ()).2) := by
  refine ⟨?_, rfl, by decide⟩
  intro σ Val pretty e w
  refine ⟨pretty (e.run w.st).2, ?_, rfl⟩
  unfold printc1
  cases h : e.run w.st with
  | mk s1 v => rfl

/-- C7: Trailing comma equivalence in the multi-argument form.  The
optional `$(,)?` of the variadic arm binds no metavariable, so whether a
trailing comma is present cannot change the expansion: `printc!(A, B,)`
and `printc!(A, B)` have identical output and results. -/
theorem trailing_comma_equivalence {σ Val : Type} (pretty : Val → String)
    (a b : Expr σ Val) (w : World σ) :
    printcCall pretty [a, b] true w = printcCall pretty [a, b] false w :=
  rfl

/-- C8: Effect frame.  Every compiling invocation (one or more
expressions) writes exactly one line per expression evaluated — the sink
grows by exactly the number of expressions, in order — and leaves the
caller state exactly as bare left-to-right evaluation of the same
expressions would: no other observable effect is introduced. -/
theorem effect_frame {σ Val : Type} (pretty : Val → String)
    (es : List (Expr σ Val)) (tc : Bool) (w : World σ)
    (h : 1 ≤ es.length) :
    ∃ w1 vs, printcCall pretty es tc w = some (w1, vs)
      ∧ w1.out = w.out ++ linesOf pretty es w.st
      ∧ (linesOf pretty es w.st).length = es.length
      ∧ w1.st = (evalSeq es w.st).1
      ∧ vs = (evalSeq es w.st).2 := by
  match es with
  | [] => simp at h
  | [e] =>
    refine ⟨(printc1 pretty e w).1, [(printc1 pretty e w).2], ?_, ?_⟩
    · show (match printc1 pretty e w with
        | (w1, v) => some (w1, [v])) = _
      cases printc1 pretty e w with
      | mk w1 v => rfl
    · unfold printc1 linesOf lineOf evalSeq linesOf
      cases hr : e.run w.st with
      | mk s1 v => simp [hr, evalSeq]
  | e1 :: e2 :: rest =>
    refine ⟨(printcList pretty (e1 :: e2 :: rest) w).1,
      (printcList pretty (e1 :: e2 :: rest) w).2, ?_, ?_, ?_, ?_, ?_⟩
    · show some (printcList pretty (e1 :: e2 :: rest) w) = _
      cases printcList pretty (e1 :: e2 :: rest) w with
      | mk w1 vs => rfl
    · rw [printcList_eq_evalSeq]
    · exact linesOf_length pretty _ _
    · rw [printcList_eq_evalSeq]
    · rw [printcList_eq_evalSeq]

/-- Witness for C8 at a concrete one-expression invocation. -/
theorem effect_frame_witness :
    ∃ w1 vs,
      printcCall (fun n : Nat => toString n)
          [⟨"x", fun s : Nat => (s + 3, 9)⟩] false ⟨0, []⟩
        = some (w1, vs)
      ∧ w1.out = [] ++ linesOf (fun n : Nat => toString n)
          [⟨"x", fun s : Nat => (s + 3, 9)⟩] 0
      ∧ (linesOf (fun n : Nat => toString n)
          [⟨"x", fun s : Nat => (s + 3, 9)⟩] 0).length
        = [(⟨"x", fun s : Nat => (s + 3, 9)⟩ : Expr Nat Nat)].length
      ∧ w1.st = (evalSeq [⟨"x", fun s : Nat => (s + 3, 9)⟩] 0).1
      ∧ vs = (evalSeq [⟨"x", fun s : Nat => (s + 3, 9)⟩] 0).2 :=
  effect_frame (fun n : Nat => toString n)
    [⟨"x", fun s : Nat => (s + 3, 9)⟩] false ⟨0, []⟩ (by decide)

/-- C9: Single-expression trailing comma.  The one-expression arm's
matcher is `$val:expr $(,)?`, so `printc!(E,)` is accepted and, the
optional comma binding no metavariable, expands exactly as `printc!(E)`:
same single line, same yielded value. -/
theorem single_trailing_comma {σ Val : Type} (pretty : Val → String)
    (e : Expr σ Val) (w : World σ) :
    printcCall pretty [e] true w = printcCall pretty [e] false w
    ∧ printcCall pretty [e] true w
        = some ((printc1 pretty e w).1, [(printc1 pretty e w).2]) := by
  refine ⟨rfl, ?_⟩
  show (match printc1 pretty e w with
    | (w1, v) => some (w1, [v])) = _
  cases printc1 pretty e w with
  | mk w1 v => rfl

end Printc
